import Mathlib

/-! h-fwd: rewrite rules, header parsing and the regexp path rewriter

A shallow embedding of `cli/root.go` (`parseRewritePaths`, `parseHeaders`) and
`config/url.go` (`URL.setup`, `newRegexpPathRewriter`, `regexpPathRewriter.Do`).

Conventions of the embedding:

* a Go `string` is a `List Char` (`GoString`); the only separator the program
  splits on is the one-byte `:`, so splitting by character and by byte agree;
* a Go `map[string]V` is an association list with one entry per key
  (`GoMap V`); `range` over a map visits its entries in an unspecified order,
  so every function that ranges over a map takes the visiting order as an
  argument, and theorems quantify over every permutation of the entries;
* a run-time panic (index out of range) is `none`;
* the `regexp` package of the Go standard library is a parameter (`RegexpLib`):
  the program only calls `Compile` and `ReplaceAllString`.
-/

namespace HFwd

/-- Go `string`. -/
abbrev GoString := List Char

/-! ## `strings.SplitAfterN` -/

/-- `strings.IndexByte`: position of the first occurrence of `b`, `none` for Go's `-1`. -/
def IndexByte : GoString → Char → Option Nat
  | [], _ => none
  | c :: cs, b => if c = b then some 0 else (IndexByte cs b).map (· + 1)

/-- The loop of `strings.genSplit` for a one-byte separator kept in the piece
(`sepSave = len(sep) = 1`): at most `k` cuts, the remainder is the last piece. -/
def genSplitLoop (sep : Char) : Nat → GoString → List GoString
  | 0, s => [s]
  | k + 1, s =>
    match IndexByte s sep with
    | none => [s]
    | some m => s.take (m + 1) :: genSplitLoop sep k (s.drop (m + 1))

/-- `strings.SplitAfterN(s, sep, n)` for a one-byte `sep` and `n ≥ 0`: the pieces
keep their trailing separator; `n = 0` gives no piece, and `n` is capped at
`len(s) + 1` as in `genSplit`. -/
def SplitAfterN (s : GoString) (sep : Char) (n : Nat) : List GoString :=
  if n = 0 then []
  else genSplitLoop sep (min n (s.length + 1) - 1) s

/-! ## Go maps -/

/-- Go `map[string]V` as an association list holding one entry per key. -/
abbrev GoMap (V : Type) := List (GoString × V)

/-- Map read `m[k]` in its two-result form. -/
def GoMap.lookup {V : Type} (m : GoMap V) (k : GoString) : Option V :=
  match m with
  | [] => none
  | (k', v') :: rest => if k' = k then some v' else GoMap.lookup rest k

/-- Map write `m[k] = v`: replaces the entry of `k` when there is one. -/
def GoMap.store {V : Type} (m : GoMap V) (k : GoString) (v : V) : GoMap V :=
  match m with
  | [] => [(k, v)]
  | (k', v') :: rest => if k' = k then (k, v) :: rest else (k', v') :: GoMap.store rest k v

/-! ## `net/http.Header` -/

/-- `textproto.validHeaderFieldByte`: the token characters of RFC 7230. -/
def validHeaderFieldByte (c : Char) : Bool :=
  c.isAlphanum || c ∈ "!#$%&*+-.^_|~".toList || c = Char.ofNat 39 || c = Char.ofNat 96

/-- The case-folding loop of `textproto.canonicalMIMEHeaderKey`: upper case at the
start and after each dash, lower case elsewhere. -/
def canonicalLoop : Bool → GoString → GoString
  | _, [] => []
  | upper, c :: cs =>
    let c' := if upper && c.isLower then c.toUpper
              else if !upper && c.isUpper then c.toLower else c
    c' :: canonicalLoop (c' = '-') cs

/-- `textproto.CanonicalMIMEHeaderKey`: a key holding a byte that is not a token
character is returned unchanged, any other key is case-folded. -/
def CanonicalMIMEHeaderKey (s : GoString) : GoString :=
  if s.all validHeaderFieldByte then canonicalLoop true s else s

/-- `http.Header`, a `map[string][]string`. -/
abbrev Header := GoMap (List GoString)

/-- Map read `h[k]` of a header: the nil slice when the key is absent. -/
def Header.values (h : Header) (k : GoString) : List GoString :=
  (GoMap.lookup h k).getD []

/-- `http.Header.Add`: `key = CanonicalMIMEHeaderKey(key); h[key] = append(h[key], value)`. -/
def Header.Add (h : Header) (key value : GoString) : Header :=
  let key := CanonicalMIMEHeaderKey key
  GoMap.store h key (Header.values h key ++ [value])

/-! ## `cli/root.go` -/

/-- The loop of `parseRewritePaths`: `sp := strings.SplitAfterN(p, ":", 2); m[sp[0]] = sp[1]`.
An index out of range stops the function with a panic (`none`). -/
def parseRewritePathsLoop : List GoString → GoMap GoString → Option (GoMap GoString)
  | [], m => some m
  | p :: rest, m =>
    let sp := SplitAfterN p ':' 2
    match sp[0]?, sp[1]? with
    | some k, some v => parseRewritePathsLoop rest (GoMap.store m k v)
    | _, _ => none

/-- `parseRewritePaths(rewritePaths []string) map[string]string`. -/
def parseRewritePaths (rewritePaths : List GoString) : Option (GoMap GoString) :=
  parseRewritePathsLoop rewritePaths []

/-- The loop of `parseHeaders`: `sp := strings.SplitAfterN(h, ":", 2); hh.Add(sp[0], sp[1])`. -/
def parseHeadersLoop : List GoString → Header → Option Header
  | [], hh => some hh
  | h :: rest, hh =>
    let sp := SplitAfterN h ':' 2
    match sp[0]?, sp[1]? with
    | some k, some v => parseHeadersLoop rest (Header.Add hh k v)
    | _, _ => none

/-- `parseHeaders(headers []string) http.Header`. -/
def parseHeaders (headers : List GoString) : Option Header :=
  parseHeadersLoop headers []

/-! ## The `regexp` package -/

/-- The part of Go's `regexp` package the program calls. `Compile` returns the
compiled expression or the text of the error; `ReplaceAllString rex src repl`
is `rex.ReplaceAllString(src, repl)`. -/
structure RegexpLib where
  Regexp : Type
  Compile : GoString → Except GoString Regexp
  ReplaceAllString : Regexp → GoString → GoString → GoString

/-! ## `net/url.URL` -/

/-- `net/url.URL`; `User` is the user name with its optional password. -/
structure NetURL where
  Scheme : GoString
  Opaque : GoString
  User : Option (GoString × Option GoString)
  Host : GoString
  Path : GoString
  RawPath : GoString
  ForceQuery : Bool
  RawQuery : GoString
  Fragment : GoString
  deriving DecidableEq, Repr

/-! ## `config/url.go` -/

/-- `regexpPathRewriter`, the one implementation of the `PathRewriter` interface. -/
structure regexpPathRewriter (L : RegexpLib) where
  rex : L.Regexp
  repl : GoString

/-- `URL`: the configuration parameters for the destination. -/
structure URL (L : RegexpLib) where
  RewritePaths : GoMap GoString
  pathRewriters : List (regexpPathRewriter L)

/-- `(*URL).PathRewriters`. -/
def URL.PathRewriters {L : RegexpLib} (u : URL L) : List (regexpPathRewriter L) :=
  u.pathRewriters

/-- `newRegexpPathRewriter(re, repl)`: the error is
`fmt.Errorf("config: failed to compile regexp for path rewriter %v: %v", re, err)`. -/
def newRegexpPathRewriter (L : RegexpLib) (re repl : GoString) :
    Except GoString (regexpPathRewriter L) :=
  match L.Compile re with
  | .error err =>
    .error ("config: failed to compile regexp for path rewriter ".toList ++ re ++ ": ".toList ++ err)
  | .ok rex => .ok { rex := rex, repl := repl }

/-- `newRewriter(old, new)`. -/
def newRewriter (L : RegexpLib) (old new : GoString) : Except GoString (regexpPathRewriter L) :=
  newRegexpPathRewriter L old new

/-- The `for old, new := range u.RewritePaths` loop of `setup` over the entries in
the order the range visits them: the URL after the loop and the returned error
(`none` is Go's nil error). -/
def setupLoop {L : RegexpLib} : List (GoString × GoString) → URL L → URL L × Option GoString
  | [], u => (u, none)
  | (old, new) :: rest, u =>
    match newRewriter L old new with
    | .error err => (u, some err)
    | .ok rwr => setupLoop rest { u with pathRewriters := u.pathRewriters ++ [rwr] }

/-- `(*URL).setup`: a nil receiver (`none`) returns nil at once; `order` is the
order in which the range over `u.RewritePaths` visits the entries. -/
def URL.setup {L : RegexpLib} (u : Option (URL L)) (order : List (GoString × GoString)) :
    Option (URL L) × Option GoString :=
  match u with
  | none => (none, none)
  | some u => (some (setupLoop order u).1, (setupLoop order u).2)

/-- The input of `Do`: `u.RawPath` when `len(u.RawPath) != 0`, `u.Path` otherwise. -/
def origPath (u : NetURL) : GoString :=
  if u.RawPath.length ≠ 0 then u.RawPath else u.Path

/-- `(*regexpPathRewriter).Do`: the returned flag and the URL after the call. -/
def regexpPathRewriter.Do {L : RegexpLib} (r : regexpPathRewriter L) (u : NetURL) :
    Bool × NetURL :=
  let orig := origPath u
  let replaced := L.ReplaceAllString r.rex orig r.repl
  if replaced = orig then (false, u)
  else (true, { u with Path := replaced })

/-- Modelled from the spec: the per-request loop of the forwarding handler (package
`hfwd`, not part of the sources at hand), section 4.1: the rewriters are applied
in their order and the loop stops at the first one whose `Do` reports a change. -/
def rewritePath {L : RegexpLib} : List (regexpPathRewriter L) → NetURL → Bool × NetURL
  | [], u => (false, u)
  | r :: rest, u => if (r.Do u).1 then (true, (r.Do u).2) else rewritePath rest (r.Do u).2

/-! ## A regular-expression library for the literal fragment

Used to evaluate the program on concrete inputs. It agrees with Go's `regexp`
package on patterns that are literal text, optionally anchored by a leading `^`,
with replacements free of `$`, and on the pattern `(`, which Go rejects
(`missing closing )`); the examples use no other pattern. Every general theorem
below holds for an arbitrary `RegexpLib`. -/

/-- A compiled pattern of the fragment: literal text, anchored at the start or not. -/
structure LitRegexp where
  anchored : Bool
  lit : GoString
  deriving DecidableEq, Repr

/-- The characters with a special meaning in a Go regular expression. -/
def isMetaChar (c : Char) : Bool :=
  c ∈ ".+*?()|[]{}^$".toList || c = Char.ofNat 92

/-- Compilation in the fragment: literal text after an optional `^`. The pattern
`(` is rejected with the message Go gives it; a pattern holding any other
special character is outside the fragment and rejected as such. -/
def litCompile (p : GoString) : Except GoString LitRegexp :=
  let body := if p.head? = some '^' then p.tail else p
  if p = ['('] then .error "error parsing regexp: missing closing ): `(`".toList
  else if body.any isMetaChar then .error ("regexp outside the literal fragment: ".toList ++ p)
  else .ok { anchored := p.head? = some '^', lit := body }

/-- Leftmost non-overlapping replacement of a non-empty literal; `skip` counts the
characters of the current match still to be dropped. -/
def litReplaceAll (lit repl : GoString) : Nat → GoString → GoString
  | _, [] => []
  | skip + 1, _ :: cs => litReplaceAll lit repl skip cs
  | 0, c :: cs =>
    if lit.isPrefixOf (c :: cs) then repl ++ litReplaceAll lit repl (lit.length - 1) cs
    else c :: litReplaceAll lit repl 0 cs

/-- `ReplaceAllString` in the fragment. An anchored pattern matches once, at the
start; the empty pattern matches before every character and at the end. -/
def litReplaceAllString (rex : LitRegexp) (src repl : GoString) : GoString :=
  if rex.anchored then
    if rex.lit.isPrefixOf src then repl ++ src.drop rex.lit.length else src
  else if rex.lit = [] then repl ++ src.flatMap (fun c => c :: repl)
  else litReplaceAll rex.lit repl 0 src

/-- The library of the literal fragment. -/
def litRegexp : RegexpLib where
  Regexp := LitRegexp
  Compile := litCompile
  ReplaceAllString := litReplaceAllString

/-- A URL that is only a path. -/
def pathURL (path : GoString) : NetURL :=
  { Scheme := [], Opaque := [], User := none, Host := [], Path := path, RawPath := [],
    ForceQuery := false, RawQuery := [], Fragment := [] }

/-! ## Reading an entry `<name>:<value>` -/

/-- The text of an entry before its first `:`. -/
def fieldName (e : GoString) : GoString := e.takeWhile (· ≠ ':')

/-- The text of an entry after its first `:`. -/
def fieldValue (e : GoString) : GoString := (e.dropWhile (· ≠ ':')).tail

/-- The values the entries of `es` give to the stored key `k`, in input order. -/
def valuesFor (es : List GoString) (k : GoString) : List GoString :=
  (es.filter (fun e => decide (fieldName e ++ [':'] = k))).map fieldValue

/-! ## Reading a rule set -/

/-- Whether `regexp.Compile` accepts the pattern. -/
def compiles (L : RegexpLib) (p : GoString) : Bool :=
  match L.Compile p with
  | .ok _ => true
  | .error _ => false

/-- The rewriters of the entries whose pattern compiles, in the order of the entries. -/
def rewritersOf (L : RegexpLib) : List (GoString × GoString) → List (regexpPathRewriter L)
  | [] => []
  | (old, new) :: rest =>
    match L.Compile old with
    | .ok rex => { rex := rex, repl := new } :: rewritersOf L rest
    | .error _ => rewritersOf L rest

/-- The substitution of the rule `(pattern, replacement)` on the path `orig`; a
pattern that does not compile substitutes nothing. -/
def substitute (L : RegexpLib) (e : GoString × GoString) (orig : GoString) : GoString :=
  match L.Compile e.1 with
  | .ok rex => L.ReplaceAllString rex orig e.2
  | .error _ => orig

/-- Whether the substitution of the rule changes the input path of the URL. -/
def changesPath (L : RegexpLib) (u : NetURL) (e : GoString × GoString) : Bool :=
  decide (substitute L e (origPath u) ≠ origPath u)

/-! ## Sample values -/

/-- The rewriter of the rule `("^/old", "/new")` in the literal fragment. -/
def oldToNew : regexpPathRewriter litRegexp :=
  { rex := ({ anchored := true, lit := "/old".toList } : LitRegexp), repl := "/new".toList }

/-- The rewriter of the rule `("/keep", "/keep")` in the literal fragment. -/
def keepToKeep : regexpPathRewriter litRegexp :=
  { rex := ({ anchored := false, lit := "/keep".toList } : LitRegexp), repl := "/keep".toList }

/-- A URL whose raw path `/old/a%2Fb` differs from its decoded path `/old/a/b`. -/
def escapedURL : NetURL :=
  { Scheme := "http".toList, Opaque := [], User := none, Host := "example.com".toList,
    Path := "/old/a/b".toList, RawPath := "/old/a%2Fb".toList, ForceQuery := false,
    RawQuery := "q=1".toList, Fragment := [] }

/-- A rule set with one pattern that compiles and one, `(`, that does not. -/
def mixedRules : GoMap GoString :=
  [("/a".toList, "/b".toList), ("(".toList, "/c".toList)]

/-- The URL configuration built from a parsed rule set, before `setup`. -/
def newURL (L : RegexpLib) (m : GoMap GoString) : URL L :=
  { RewritePaths := m, pathRewriters := [] }

/-- The rules `-r ^/old:/new -r ^/old:/other`. -/
def samePatternRules : List GoString := ["^/old:/new".toList, "^/old:/other".toList]

/-- The rules `-r a:X -r b:Y`. -/
def twoRules : List GoString := ["a:X".toList, "b:Y".toList]

/-! ## Lemmas on splitting -/

theorem IndexByte_absent (b : Char) (s : GoString) (h : b ∉ s) : IndexByte s b = none := by
  induction s with
  | nil => rfl
  | cons c cs ih =>
    have hc : c ≠ b := fun e => h (by simp [e])
    have hcs : b ∉ cs := fun m => h (List.mem_cons_of_mem _ m)
    simp [IndexByte, hc, ih hcs]

theorem IndexByte_first (b : Char) (pre post : GoString) (h : b ∉ pre) :
    IndexByte (pre ++ b :: post) b = some pre.length := by
  induction pre with
  | nil => simp [IndexByte]
  | cons c cs ih =>
    have hc : c ≠ b := fun e => h (by simp [e])
    have hcs : b ∉ cs := fun m => h (List.mem_cons_of_mem _ m)
    simp [IndexByte, hc, ih hcs]

theorem SplitAfterN_two_absent (s : GoString) (h : ':' ∉ s) : SplitAfterN s ':' 2 = [s] := by
  unfold SplitAfterN
  cases s with
  | nil => simp [genSplitLoop]
  | cons c cs =>
    have : min 2 ((c :: cs).length + 1) - 1 = 1 := by simp
    simp only [this]
    simp [genSplitLoop, IndexByte_absent _ _ h]

theorem SplitAfterN_two_first (pre post : GoString) (h : ':' ∉ pre) :
    SplitAfterN (pre ++ ':' :: post) ':' 2 = [pre ++ [':'], post] := by
  unfold SplitAfterN
  have : min 2 ((pre ++ ':' :: post).length + 1) - 1 = 1 := by
    simp only [List.length_append, List.length_cons]; omega
  simp only [this]
  simp [genSplitLoop, IndexByte_first _ _ _ h, List.take_append_eq_append_take]

theorem entry_decompose (e : GoString) (h : ':' ∈ e) :
    e = fieldName e ++ ':' :: fieldValue e ∧ ':' ∉ fieldName e := by
  induction e with
  | nil => simp at h
  | cons c cs ih =>
    by_cases hc : c = ':'
    · subst hc
      simp [fieldName, fieldValue]
    · have hcs : ':' ∈ cs := by
        rcases List.mem_cons.1 h with h1 | h1
        · exact absurd h1.symm hc
        · exact h1
      obtain ⟨h1, h2⟩ := ih hcs
      have hn : fieldName (c :: cs) = c :: fieldName cs := by simp [fieldName, hc]
      have hv : fieldValue (c :: cs) = fieldValue cs := by simp [fieldValue, hc]
      rw [hn, hv]
      refine ⟨by rw [List.cons_append, ← h1], ?_⟩
      intro hm
      rcases List.mem_cons.1 hm with h3 | h3
      · exact hc h3.symm
      · exact h2 h3

theorem SplitAfterN_two_present (e : GoString) (h : ':' ∈ e) :
    SplitAfterN e ':' 2 = [fieldName e ++ [':'], fieldValue e] := by
  obtain ⟨h1, h2⟩ := entry_decompose e h
  have := SplitAfterN_two_first (fieldName e) (fieldValue e) h2
  rw [← h1] at this
  exact this

/-! ## Lemmas on maps and headers -/

theorem GoMap.lookup_store {V : Type} (m : GoMap V) (k k' : GoString) (v : V) :
    GoMap.lookup (GoMap.store m k v) k' = if k = k' then some v else GoMap.lookup m k' := by
  induction m with
  | nil => simp [GoMap.store, GoMap.lookup]
  | cons hd tl ih =>
    obtain ⟨a, b⟩ := hd
    by_cases h1 : a = k
    · subst h1
      by_cases h2 : a = k' <;> simp [GoMap.store, GoMap.lookup, h2]
    · by_cases h2 : a = k'
      · subst h2
        simp [GoMap.store, GoMap.lookup, h1, Ne.symm h1]
      · simp [GoMap.store, GoMap.lookup, h1, h2, ih]

theorem CanonicalMIMEHeaderKey_colon (s : GoString) (h : ':' ∈ s) :
    CanonicalMIMEHeaderKey s = s := by
  unfold CanonicalMIMEHeaderKey
  have : s.all validHeaderFieldByte = false := by
    rw [List.all_eq_false]
    exact ⟨':', h, by decide⟩
  simp [this]

theorem Header.values_Add (h : Header) (key value k : GoString) :
    Header.values (Header.Add h key value) k =
      if CanonicalMIMEHeaderKey key = k then Header.values h k ++ [value]
      else Header.values h k := by
  unfold Header.Add Header.values
  simp only [GoMap.lookup_store]
  by_cases hk : CanonicalMIMEHeaderKey key = k
  · subst hk; simp
  · simp [hk]

/-! ## Lemmas on the two parsing loops -/

theorem parseRewritePathsLoop_present (p : GoString) (rest : List GoString) (m : GoMap GoString)
    (h : ':' ∈ p) :
    parseRewritePathsLoop (p :: rest) m =
      parseRewritePathsLoop rest (GoMap.store m (fieldName p ++ [':']) (fieldValue p)) := by
  simp [parseRewritePathsLoop, SplitAfterN_two_present p h]

theorem parseRewritePathsLoop_absent (p : GoString) (rest : List GoString) (m : GoMap GoString)
    (h : ':' ∉ p) : parseRewritePathsLoop (p :: rest) m = none := by
  simp [parseRewritePathsLoop, SplitAfterN_two_absent p h]

theorem parseHeadersLoop_present (p : GoString) (rest : List GoString) (hh : Header)
    (h : ':' ∈ p) :
    parseHeadersLoop (p :: rest) hh =
      parseHeadersLoop rest (Header.Add hh (fieldName p ++ [':']) (fieldValue p)) := by
  simp [parseHeadersLoop, SplitAfterN_two_present p h]

theorem parseHeadersLoop_absent (p : GoString) (rest : List GoString) (hh : Header)
    (h : ':' ∉ p) : parseHeadersLoop (p :: rest) hh = none := by
  simp [parseHeadersLoop, SplitAfterN_two_absent p h]

theorem parseRewritePathsLoop_isSome (es : List GoString) (m : GoMap GoString) :
    (parseRewritePathsLoop es m).isSome = true ↔ ∀ e ∈ es, ':' ∈ e := by
  induction es generalizing m with
  | nil => simp [parseRewritePathsLoop]
  | cons p rest ih =>
    by_cases h : ':' ∈ p
    · rw [parseRewritePathsLoop_present p rest m h, ih]
      simp [h]
    · rw [parseRewritePathsLoop_absent p rest m h]
      simp [h]

theorem parseHeadersLoop_isSome (es : List GoString) (hh : Header) :
    (parseHeadersLoop es hh).isSome = true ↔ ∀ e ∈ es, ':' ∈ e := by
  induction es generalizing hh with
  | nil => simp [parseHeadersLoop]
  | cons p rest ih =>
    by_cases h : ':' ∈ p
    · rw [parseHeadersLoop_present p rest hh h, ih]
      simp [h]
    · rw [parseHeadersLoop_absent p rest hh h]
      simp [h]

theorem parseHeadersLoop_values (es : List GoString) (hh : Header)
    (h : ∀ e ∈ es, ':' ∈ e) :
    ∃ hh', parseHeadersLoop es hh = some hh' ∧
      ∀ k, Header.values hh' k = Header.values hh k ++ valuesFor es k := by
  induction es generalizing hh with
  | nil => exact ⟨hh, rfl, by simp [valuesFor]⟩
  | cons p rest ih =>
    have hp : ':' ∈ p := h p (by simp)
    obtain ⟨hh', h1, h2⟩ :=
      ih (Header.Add hh (fieldName p ++ [':']) (fieldValue p))
        (fun e he => h e (List.mem_cons_of_mem _ he))
    refine ⟨hh', by rw [parseHeadersLoop_present p rest hh hp, h1], ?_⟩
    intro k
    rw [h2 k, Header.values_Add, CanonicalMIMEHeaderKey_colon _ (by simp)]
    by_cases hk : fieldName p ++ [':'] = k
    · simp [valuesFor, hk, List.filter_cons]
    · simp [valuesFor, hk, List.filter_cons]

/-! ## `parseRewritePaths` and `parseHeaders` -/

/-- C1 (what the code does): for a rule `<pattern>:<replacement>` whose pattern holds
no `:`, `parseRewritePaths` returns the map whose only key is `<pattern>:`, the
pattern with the separator still attached, bound to `<replacement>`; the key
`<pattern>` itself is absent from the map. -/
theorem parseRewritePaths_key_keeps_colon (pattern replacement : GoString)
    (h : ':' ∉ pattern) :
    parseRewritePaths [pattern ++ ':' :: replacement] = some [(pattern ++ [':'], replacement)] ∧
    GoMap.lookup [(pattern ++ [':'], replacement)] pattern = none := by
  constructor
  · simp [parseRewritePaths, parseRewritePathsLoop, SplitAfterN_two_first pattern replacement h,
      GoMap.store]
  · have hne : pattern ++ [':'] ≠ pattern := by
      intro e
      have := congrArg List.length e
      simp at this
    simp [GoMap.lookup, hne]

/-- C1 at the documented rule `-r /old:/new`: the key of the returned map is `/old:`
and `/old` is not a key. -/
theorem parseRewritePaths_key_keeps_colon_witness :
    ':' ∉ "/old".toList ∧
    parseRewritePaths ["/old:/new".toList] = some [("/old:".toList, "/new".toList)] ∧
    GoMap.lookup [("/old:".toList, "/new".toList)] "/old".toList = none :=
  ⟨by decide, parseRewritePaths_key_keeps_colon "/old".toList "/new".toList (by decide)⟩

/-- C6 (what the code does): for a header `<name>:<value>` whose name holds no `:`,
`parseHeaders` returns the header set whose only key is `<name>:`, the name with
the separator still attached, carrying `<value>`; the header named `<name>`
carries no value. -/
theorem parseHeaders_name_keeps_colon (name value : GoString) (h : ':' ∉ name) :
    parseHeaders [name ++ ':' :: value] = some [(name ++ [':'], [value])] ∧
    Header.values [(name ++ [':'], [value])] name = [] := by
  constructor
  · simp [parseHeaders, parseHeadersLoop, SplitAfterN_two_first name value h, Header.Add,
      CanonicalMIMEHeaderKey_colon, GoMap.store, Header.values, GoMap.lookup]
  · have hne : name ++ [':'] ≠ name := by
      intro e
      have := congrArg List.length e
      simp at this
    simp [Header.values, GoMap.lookup, hne]

/-- C6 at the documented header `-H Host:https://custom.example.com`: the value is
stored under `Host:` and the header `Host` is empty. -/
theorem parseHeaders_name_keeps_colon_witness :
    ':' ∉ "Host".toList ∧
    parseHeaders ["Host:https://custom.example.com".toList] =
      some [("Host:".toList, ["https://custom.example.com".toList])] ∧
    Header.values [("Host:".toList, ["https://custom.example.com".toList])] "Host".toList = [] :=
  ⟨by decide,
    parseHeaders_name_keeps_colon "Host".toList "https://custom.example.com".toList (by decide)⟩

/-- C7: for every list of header strings that each hold a `:`, `parseHeaders` returns
a header set in which the values stored under any key `k` are exactly the values
(text after the first `:`) of the input entries stored under `k`, in input
order, none dropped or overwritten; in particular all entries of one name
`<name>` have their values, in input order, under the one key `<name>:`. -/
theorem parseHeaders_preserves_order (headers : List GoString)
    (h : ∀ e ∈ headers, ':' ∈ e) :
    ∃ hh, parseHeaders headers = some hh ∧
      (∀ k, Header.values hh k = valuesFor headers k) ∧
      (∀ name, Header.values hh (name ++ [':']) =
        (headers.filter (fun e => decide (fieldName e = name))).map fieldValue) := by
  obtain ⟨hh, h1, h2⟩ := parseHeadersLoop_values headers [] h
  refine ⟨hh, h1, ?_, ?_⟩
  · intro k
    rw [h2 k]
    simp [Header.values, GoMap.lookup]
  · intro name
    rw [h2 (name ++ [':'])]
    simp [Header.values, GoMap.lookup, valuesFor]

/-- C7 at `X-Trace:a` then `X-Trace:b`: the values stored are `[a, b]`. -/
theorem parseHeaders_preserves_order_witness :
    (∀ e ∈ ["X-Trace:a".toList, "X-Trace:b".toList], ':' ∈ e) ∧
    ∃ hh, parseHeaders ["X-Trace:a".toList, "X-Trace:b".toList] = some hh ∧
      (∀ k, Header.values hh k = valuesFor ["X-Trace:a".toList, "X-Trace:b".toList] k) ∧
      (∀ name, Header.values hh (name ++ [':']) =
        (["X-Trace:a".toList, "X-Trace:b".toList].filter
          (fun e => decide (fieldName e = name))).map fieldValue) :=
  ⟨by decide, parseHeaders_preserves_order ["X-Trace:a".toList, "X-Trace:b".toList] (by decide)⟩

/-- C9: the second piece `sp[1]` of `strings.SplitAfterN(e, ":", 2)` is in range
exactly when the entry `e` holds a `:`; `parseRewritePaths` and `parseHeaders`
each return a result exactly when every entry of the input holds a `:`, and
stop with an index-out-of-range panic as soon as the input has an entry
without one. -/
theorem parse_defined_iff_every_entry_has_colon :
    (∀ e : GoString, ((SplitAfterN e ':' 2)[1]?).isSome = true ↔ ':' ∈ e) ∧
    (∀ l : List GoString, (parseRewritePaths l).isSome = true ↔ ∀ e ∈ l, ':' ∈ e) ∧
    (∀ l : List GoString, (parseHeaders l).isSome = true ↔ ∀ e ∈ l, ':' ∈ e) ∧
    (∀ l : List GoString, (∃ e ∈ l, ':' ∉ e) → parseRewritePaths l = none ∧ parseHeaders l = none) := by
  refine ⟨?_, ?_, ?_, ?_⟩
  · intro e
    by_cases h : ':' ∈ e
    · simp [SplitAfterN_two_present e h, h]
    · simp [SplitAfterN_two_absent e h, h]
  · intro l
    exact parseRewritePathsLoop_isSome l []
  · intro l
    exact parseHeadersLoop_isSome l []
  · rintro l ⟨e, he, hne⟩
    have h1 := parseRewritePathsLoop_isSome l []
    have h2 := parseHeadersLoop_isSome l []
    constructor
    · cases hr : parseRewritePaths l with
      | none => rfl
      | some m =>
        have : (parseRewritePathsLoop l []).isSome = true := by
          have : parseRewritePathsLoop l [] = some m := hr
          simp [this]
        exact absurd (h1.1 this e he) hne
    · cases hr : parseHeaders l with
      | none => rfl
      | some m =>
        have : (parseHeadersLoop l []).isSome = true := by
          have : parseHeadersLoop l [] = some m := hr
          simp [this]
        exact absurd (h2.1 this e he) hne

/-- C9 at one entry with a `:` and one without. -/
theorem parse_defined_iff_every_entry_has_colon_witness :
    (parseRewritePaths ["/old:/new".toList]).isSome = true ∧
    parseRewritePaths ["/old:/new".toList, "/old".toList] = none ∧
    parseHeaders ["X-Trace:a".toList, "X-Trace".toList] = none :=
  ⟨(parse_defined_iff_every_entry_has_colon.2.1 ["/old:/new".toList]).2 (by decide),
   (parse_defined_iff_every_entry_has_colon.2.2.2 ["/old:/new".toList, "/old".toList]
      (by decide)).1,
   (parse_defined_iff_every_entry_has_colon.2.2.2 ["X-Trace:a".toList, "X-Trace".toList]
      (by decide)).2⟩

/-! ## Lemmas on `setup` -/

theorem setupLoop_rewriters {L : RegexpLib} (order : List (GoString × GoString)) (u : URL L) :
    (setupLoop order u).1.pathRewriters =
        u.pathRewriters ++ rewritersOf L (order.takeWhile (fun e => compiles L e.1)) ∧
    (setupLoop order u).1.RewritePaths = u.RewritePaths := by
  induction order generalizing u with
  | nil => simp [setupLoop, rewritersOf]
  | cons e rest ih =>
    obtain ⟨old, new⟩ := e
    cases hc : L.Compile old with
    | error err =>
      simp [setupLoop, newRewriter, newRegexpPathRewriter, hc, compiles, rewritersOf]
    | ok rex =>
      have := ih { u with pathRewriters := u.pathRewriters ++ [{ rex := rex, repl := new }] }
      simp [setupLoop, newRewriter, newRegexpPathRewriter, hc, compiles, rewritersOf, this]

theorem setupLoop_nil_iff {L : RegexpLib} (order : List (GoString × GoString)) (u : URL L) :
    (setupLoop order u).2 = none ↔ ∀ e ∈ order, compiles L e.1 = true := by
  induction order generalizing u with
  | nil => simp [setupLoop]
  | cons e rest ih =>
    obtain ⟨old, new⟩ := e
    cases hc : L.Compile old with
    | error err =>
      simp [setupLoop, newRewriter, newRegexpPathRewriter, hc, compiles]
    | ok rex =>
      simp [setupLoop, newRewriter, newRegexpPathRewriter, hc, compiles, ih]

theorem setupLoop_message {L : RegexpLib} (order : List (GoString × GoString)) (u : URL L)
    (msg : GoString) (h : (setupLoop order u).2 = some msg) :
    ∃ e ∈ order, ∃ err, L.Compile e.1 = .error err ∧
      msg = "config: failed to compile regexp for path rewriter ".toList ++ e.1 ++
        ": ".toList ++ err := by
  induction order generalizing u with
  | nil => simp [setupLoop] at h
  | cons e rest ih =>
    obtain ⟨old, new⟩ := e
    cases hc : L.Compile old with
    | error err =>
      simp only [setupLoop, newRewriter, newRegexpPathRewriter, hc, Option.some.injEq] at h
      exact ⟨(old, new), by simp, err, hc, h.symm⟩
    | ok rex =>
      simp only [setupLoop, newRewriter, newRegexpPathRewriter, hc] at h
      obtain ⟨e, he, err, h1, h2⟩ := ih _ h
      exact ⟨e, List.mem_cons_of_mem _ he, err, h1, h2⟩

theorem takeWhile_of_all {α : Type} (p : α → Bool) (l : List α) (h : ∀ a ∈ l, p a = true) :
    l.takeWhile p = l := by
  induction l with
  | nil => rfl
  | cons a tl ih =>
    have ha : p a = true := h a (by simp)
    simp [List.takeWhile_cons, ha, ih (fun b hb => h b (List.mem_cons_of_mem _ hb))]

/-! ## Lemmas on `Do` and the rewriting loop -/

theorem Do_unchanged {L : RegexpLib} (r : regexpPathRewriter L) (u : NetURL)
    (h : (r.Do u).1 = false) : (r.Do u).2 = u := by
  unfold regexpPathRewriter.Do at h ⊢
  by_cases hc : L.ReplaceAllString r.rex (origPath u) r.repl = origPath u
  · simp [hc]
  · simp [hc] at h

theorem rewritePath_rewritersOf (L : RegexpLib) (order : List (GoString × GoString))
    (u : NetURL) :
    rewritePath (rewritersOf L order) u =
      match order.find? (changesPath L u) with
      | some e => (true, { u with Path := substitute L e (origPath u) })
      | none => (false, u) := by
  induction order with
  | nil => simp [rewritersOf, rewritePath]
  | cons e rest ih =>
    obtain ⟨old, new⟩ := e
    cases hc : L.Compile old with
    | error err =>
      have hch : changesPath L u (old, new) = false := by
        simp [changesPath, substitute, hc]
      simp only [rewritersOf, hc, List.find?_cons, hch]
      exact ih
    | ok rex =>
      by_cases hr : L.ReplaceAllString rex (origPath u) new = origPath u
      · have hch : changesPath L u (old, new) = false := by
          simp [changesPath, substitute, hc, hr]
        simp only [rewritersOf, hc, List.find?_cons, hch, rewritePath]
        simp only [regexpPathRewriter.Do, hr]
        simpa using ih
      · have hch : changesPath L u (old, new) = true := by
          simp [changesPath, substitute, hc, hr]
        simp only [rewritersOf, hc, List.find?_cons, hch, rewritePath]
        simp [regexpPathRewriter.Do, hr, substitute, hc]

/-! ## `regexpPathRewriter.Do` -/

/-- C4: `Do` works on `RawPath` when it is non-empty and on `Path` otherwise; when
the substitution of that input differs from the input, `Do` returns true and
the URL afterwards is the URL before with `Path` set to the substitution
result. -/
theorem Do_rewrites_input_path (L : RegexpLib) (r : regexpPathRewriter L) (u : NetURL) :
    (u.RawPath ≠ [] → L.ReplaceAllString r.rex u.RawPath r.repl ≠ u.RawPath →
      r.Do u = (true, { u with Path := L.ReplaceAllString r.rex u.RawPath r.repl })) ∧
    (u.RawPath = [] → L.ReplaceAllString r.rex u.Path r.repl ≠ u.Path →
      r.Do u = (true, { u with Path := L.ReplaceAllString r.rex u.Path r.repl })) := by
  constructor
  · intro h1 h2
    simp [regexpPathRewriter.Do, origPath, h1, h2]
  · intro h1 h2
    simp [regexpPathRewriter.Do, origPath, h1, h2]

/-- C4 at the rule `("^/old", "/new")`: the raw path `/old/a%2Fb` gives the path
`/new/a%2Fb`, and without a raw path `/old/x` gives `/new/x`. -/
theorem Do_rewrites_input_path_witness :
    oldToNew.Do escapedURL = (true, { escapedURL with Path := "/new/a%2Fb".toList }) ∧
    oldToNew.Do (pathURL "/old/x".toList) = (true, pathURL "/new/x".toList) :=
  ⟨(Do_rewrites_input_path litRegexp oldToNew escapedURL).1 (by decide) (by decide),
   (Do_rewrites_input_path litRegexp oldToNew (pathURL "/old/x".toList)).2 rfl (by decide)⟩

/-- C5: `Do` returns false exactly when the substitution result equals the input
path, and then the URL is left as it was, `Path` and every other field. -/
theorem Do_false_iff_same (L : RegexpLib) (r : regexpPathRewriter L) (u : NetURL) :
    ((r.Do u).1 = false ↔ L.ReplaceAllString r.rex (origPath u) r.repl = origPath u) ∧
    ((r.Do u).1 = false → (r.Do u).2 = u) := by
  refine ⟨?_, Do_unchanged r u⟩
  by_cases hc : L.ReplaceAllString r.rex (origPath u) r.repl = origPath u
  · simp [regexpPathRewriter.Do, hc]
  · simp [regexpPathRewriter.Do, hc]

/-- C5 at the path `/keep` with the rule `("/keep", "/keep")`: the pattern matches,
the result is the input, `Do` returns false and the URL is unchanged. -/
theorem Do_false_iff_same_witness :
    (keepToKeep.Do (pathURL "/keep".toList)).1 = false ∧
    (keepToKeep.Do (pathURL "/keep".toList)).2 = pathURL "/keep".toList :=
  ⟨(Do_false_iff_same litRegexp keepToKeep (pathURL "/keep".toList)).1.2 (by decide),
   (Do_false_iff_same litRegexp keepToKeep (pathURL "/keep".toList)).2 (by decide)⟩

/-- C10: `Do` leaves every field other than `Path` as it was (`RawPath`, scheme,
opaque, user, host, query, fragment), also when it returns true; hence on a URL
with a non-empty `RawPath` a second call returns the same flag and leaves the
same URL, `Path` included, as the first call. -/
theorem Do_frame (L : RegexpLib) (r : regexpPathRewriter L) (u : NetURL) :
    ((r.Do u).2.RawPath = u.RawPath ∧ (r.Do u).2.Scheme = u.Scheme ∧
      (r.Do u).2.Opaque = u.Opaque ∧ (r.Do u).2.User = u.User ∧ (r.Do u).2.Host = u.Host ∧
      (r.Do u).2.ForceQuery = u.ForceQuery ∧ (r.Do u).2.RawQuery = u.RawQuery ∧
      (r.Do u).2.Fragment = u.Fragment) ∧
    (u.RawPath ≠ [] → r.Do (r.Do u).2 = r.Do u) := by
  by_cases hc : L.ReplaceAllString r.rex (origPath u) r.repl = origPath u
  · simp [regexpPathRewriter.Do, hc]
  · refine ⟨by simp [regexpPathRewriter.Do, hc], ?_⟩
    intro hraw
    have ho : origPath u = u.RawPath := by simp [origPath, hraw]
    rw [ho] at hc
    simp [regexpPathRewriter.Do, origPath, hraw, hc]

/-- C10 at the rule `("^/old", "/new")` and a URL with raw path `/old/a%2Fb`: the
first call returns true, keeps `RawPath`, and the second call gives the same. -/
theorem Do_frame_witness :
    (oldToNew.Do escapedURL).1 = true ∧
    (oldToNew.Do escapedURL).2.RawPath = "/old/a%2Fb".toList ∧
    oldToNew.Do (oldToNew.Do escapedURL).2 = oldToNew.Do escapedURL :=
  ⟨by decide, (Do_frame litRegexp oldToNew escapedURL).1.1,
   (Do_frame litRegexp oldToNew escapedURL).2 (by decide)⟩

/-! ## `URL.setup` -/

/-- C8: for a non-nil URL and any order in which the range visits the entries of
`RewritePaths`, `setup` returns a non-nil error exactly when some key of
`RewritePaths` does not compile, and the message of the returned error holds
the text of a key that does not compile; on a nil URL `setup` returns nil, and
so it does when every pattern compiles, the empty rule set included. -/
theorem setup_error_iff_some_pattern_fails (L : RegexpLib) (u : URL L)
    (order : List (GoString × GoString)) (hperm : order.Perm u.RewritePaths) :
    ((URL.setup (some u) order).2 ≠ none ↔ ∃ e ∈ u.RewritePaths, compiles L e.1 = false) ∧
    (∀ msg, (URL.setup (some u) order).2 = some msg →
      ∃ e ∈ u.RewritePaths, compiles L e.1 = false ∧ e.1 <:+: msg) ∧
    ((∀ e ∈ u.RewritePaths, compiles L e.1 = true) → (URL.setup (some u) order).2 = none) ∧
    (URL.setup (none : Option (URL L)) order).2 = none ∧
    (u.RewritePaths = [] → (URL.setup (some u) order).2 = none) := by
  have hnil : (URL.setup (some u) order).2 = none ↔ ∀ e ∈ u.RewritePaths, compiles L e.1 = true := by
    simp only [URL.setup]
    rw [setupLoop_nil_iff]
    constructor
    · intro h e he
      exact h e (hperm.mem_iff.2 he)
    · intro h e he
      exact h e (hperm.mem_iff.1 he)
  refine ⟨?_, ?_, hnil.2, rfl, ?_⟩
  · rw [Ne, hnil]
    simp
  · intro msg hmsg
    obtain ⟨e, he, err, h1, h2⟩ := setupLoop_message order u msg hmsg
    refine ⟨e, hperm.mem_iff.1 he, by simp [compiles, h1], ?_⟩
    rw [h2]
    exact ⟨"config: failed to compile regexp for path rewriter ".toList, ": ".toList ++ err,
      by simp⟩
  · intro hempty
    exact hnil.2 (by simp [hempty])

/-- C8 at a rule set with the pattern `(`, which does not compile, visited second:
`setup` returns an error whose message holds `(`. -/
theorem setup_error_iff_some_pattern_fails_witness :
    (URL.setup (some ({ RewritePaths := mixedRules, pathRewriters := [] } : URL litRegexp))
      mixedRules).2 =
      some "config: failed to compile regexp for path rewriter (: error parsing regexp: missing closing ): `(`".toList ∧
    ∃ e ∈ mixedRules, compiles litRegexp e.1 = false ∧
      e.1 <:+: "config: failed to compile regexp for path rewriter (: error parsing regexp: missing closing ): `(`".toList :=
  ⟨by decide,
   (setup_error_iff_some_pattern_fails litRegexp
      ({ RewritePaths := mixedRules, pathRewriters := [] } : URL litRegexp) mixedRules
      (List.Perm.refl _)).2.1 _ (by decide)⟩

/-- C3 (counterexample): on the rule set with `/a`, which compiles, and `(`, which
does not, visited in that order, `setup` returns an error and `PathRewriters()`
afterwards holds the rewriter of `/a`, although it was empty before the call. -/
theorem setup_not_atomic_on_failure :
    (URL.setup (some ({ RewritePaths := mixedRules, pathRewriters := [] } : URL litRegexp))
      mixedRules).2 ≠ none ∧
    ((URL.setup (some ({ RewritePaths := mixedRules, pathRewriters := [] } : URL litRegexp))
      mixedRules).1.map (fun u => u.PathRewriters.map (fun r => r.repl))) =
        some ["/b".toList] ∧
    (({ RewritePaths := mixedRules, pathRewriters := [] } : URL litRegexp).PathRewriters.map
      (fun r => r.repl)) = [] := by
  decide

/-- C3 (amended): when `setup` returns a non-nil error, `PathRewriters()` after the
call is the list before the call followed by the rewriters of the entries
visited before the first pattern that does not compile; the earlier list stays
as a prefix, `RewritePaths` is untouched, and when the first entry visited is
the failing one the list is the same as before. -/
theorem setup_failure_appends_earlier_rewriters (L : RegexpLib) (u : URL L)
    (order : List (GoString × GoString)) (h : (URL.setup (some u) order).2 ≠ none) :
    ∃ u', (URL.setup (some u) order).1 = some u' ∧
      u'.PathRewriters =
        u.PathRewriters ++ rewritersOf L (order.takeWhile (fun e => compiles L e.1)) ∧
      u'.RewritePaths = u.RewritePaths ∧
      (order.takeWhile (fun e => compiles L e.1)).length < order.length ∧
      ((∀ e, order.head? = some e → compiles L e.1 = false) →
        u'.PathRewriters = u.PathRewriters) := by
  obtain ⟨h1, h2⟩ := setupLoop_rewriters order u
  refine ⟨(setupLoop order u).1, rfl, h1, h2, ?_, ?_⟩
  · have hne : ¬ ∀ e ∈ order, compiles L e.1 = true := by
      intro hall
      exact h ((setupLoop_nil_iff order u).2 hall)
    rcases Nat.lt_or_ge (order.takeWhile (fun e => compiles L e.1)).length order.length
      with hlt | hge
    · exact hlt
    · exfalso
      apply hne
      have hsub : (order.takeWhile (fun e => compiles L e.1)).Sublist order :=
        List.takeWhile_sublist _
      have heq : order.takeWhile (fun e => compiles L e.1) = order :=
        hsub.eq_of_length_le hge
      intro e he
      rw [← heq] at he
      simpa using List.mem_takeWhile_imp he
  · intro hfirst
    cases order with
    | nil => simp [URL.setup, setupLoop] at h
    | cons e rest =>
      have he : compiles L e.1 = false := hfirst e rfl
      simp only [URL.PathRewriters]
      rw [h1]
      simp [List.takeWhile_cons, he, rewritersOf]

/-- C3 (amended) at the rule set with `/a` and `(` visited in that order: after the
failed call `PathRewriters()` holds exactly the rewriter of `/a`. -/
theorem setup_failure_appends_earlier_rewriters_witness :
    (URL.setup (some ({ RewritePaths := mixedRules, pathRewriters := [] } : URL litRegexp))
      mixedRules).2 ≠ none ∧
    ∃ u', (URL.setup (some ({ RewritePaths := mixedRules, pathRewriters := [] } : URL litRegexp))
        mixedRules).1 = some u' ∧
      u'.PathRewriters = [] ++ rewritersOf litRegexp
        (mixedRules.takeWhile (fun e => compiles litRegexp e.1)) :=
  ⟨by decide,
   match setup_failure_appends_earlier_rewriters litRegexp
      ({ RewritePaths := mixedRules, pathRewriters := [] } : URL litRegexp) mixedRules
      (by decide) with
   | ⟨u', h1, h2, _⟩ => ⟨u', h1, h2⟩⟩

/-! ## The rule pipeline: `parseRewritePaths`, `setup`, rewriting -/

theorem GoMap.keys_store {V : Type} (m : GoMap V) (k : GoString) (v : V) :
    (GoMap.store m k v).map Prod.fst =
      if k ∈ m.map Prod.fst then m.map Prod.fst else m.map Prod.fst ++ [k] := by
  induction m with
  | nil => simp [GoMap.store]
  | cons hd tl ih =>
    obtain ⟨a, b⟩ := hd
    by_cases h1 : a = k
    · subst h1
      simp only [GoMap.store, if_true, List.map_cons, List.mem_cons, true_or]
    · have h1' : ¬ k = a := fun e => h1 e.symm
      by_cases h2 : k ∈ tl.map Prod.fst
      · simp only [GoMap.store, h1, if_false, List.map_cons, ih, h2, if_true,
          List.mem_cons, or_true]
      · simp only [GoMap.store, h1, if_false, List.map_cons, ih, h2, List.mem_cons, h1',
          or_self, List.cons_append]

theorem GoMap.store_nodup {V : Type} (m : GoMap V) (k : GoString) (v : V)
    (h : (m.map Prod.fst).Nodup) : ((GoMap.store m k v).map Prod.fst).Nodup := by
  rw [GoMap.keys_store]
  by_cases hk : k ∈ m.map Prod.fst
  · simpa [hk] using h
  · simp only [hk, if_false]
    refine List.Nodup.append h (List.nodup_singleton k) ?_
    intro x hx hx'
    rw [List.mem_singleton] at hx'
    exact hk (hx' ▸ hx)

theorem parseRewritePathsLoop_nodup (es : List GoString) (m m' : GoMap GoString)
    (h : (m.map Prod.fst).Nodup) (hp : parseRewritePathsLoop es m = some m') :
    (m'.map Prod.fst).Nodup := by
  induction es generalizing m with
  | nil =>
    simp only [parseRewritePathsLoop, Option.some.injEq] at hp
    exact hp ▸ h
  | cons p rest ih =>
    by_cases hc : ':' ∈ p
    · rw [parseRewritePathsLoop_present p rest m hc] at hp
      exact ih _ (GoMap.store_nodup m _ _ h) hp
    · rw [parseRewritePathsLoop_absent p rest m hc] at hp
      exact absurd hp (by simp)

/-- C2 (counterexample): with the rules `^/old:/new` and `^/old:/other` the parsed
map holds the single entry `^/old:` to `/other`, `setup` succeeds, and the path
`/old/x` is left unchanged with no rewrite reported, so it is not `/new/x`;
with the rules `a:X` and `b:Y` visited in the order `b:`, `a:` (a permutation of
the parsed map) the path `/a:b:` becomes `/a:Y`, while the substitution of the
rule declared first changes the path and gives `/Xb:`. -/
theorem declared_first_rule_not_applied :
    (parseRewritePaths samePatternRules = some [("^/old:".toList, "/other".toList)] ∧
      (URL.setup (some (newURL litRegexp [("^/old:".toList, "/other".toList)]))
        [("^/old:".toList, "/other".toList)]).2 = none ∧
      (URL.setup (some (newURL litRegexp [("^/old:".toList, "/other".toList)]))
        [("^/old:".toList, "/other".toList)]).1.map
          (fun u => rewritePath u.PathRewriters (pathURL "/old/x".toList)) =
        some (false, pathURL "/old/x".toList) ∧
      pathURL "/old/x".toList ≠ pathURL "/new/x".toList) ∧
    (parseRewritePaths twoRules = some [("a:".toList, "X".toList), ("b:".toList, "Y".toList)] ∧
      List.Perm [("b:".toList, "Y".toList), ("a:".toList, "X".toList)]
        [("a:".toList, "X".toList), ("b:".toList, "Y".toList)] ∧
      (URL.setup (some (newURL litRegexp [("a:".toList, "X".toList), ("b:".toList, "Y".toList)]))
        [("b:".toList, "Y".toList), ("a:".toList, "X".toList)]).2 = none ∧
      (URL.setup (some (newURL litRegexp [("a:".toList, "X".toList), ("b:".toList, "Y".toList)]))
        [("b:".toList, "Y".toList), ("a:".toList, "X".toList)]).1.map
          (fun u => rewritePath u.PathRewriters (pathURL "/a:b:".toList)) =
        some (true, pathURL "/a:Y".toList) ∧
      substitute litRegexp ("a:".toList, "X".toList) "/a:b:".toList = "/Xb:".toList ∧
      pathURL "/a:Y".toList ≠ pathURL "/Xb:".toList) := by
  refine ⟨⟨by decide, by decide, by decide, by decide⟩,
    ⟨by decide, List.Perm.swap _ _ _, by decide, by decide, by decide, by decide⟩⟩

/-- C2 (amended): for every list of rule strings that `parseRewritePaths` turns into
a map, every order in which the range of `setup` visits the entries of that map
and every URL, when `setup` succeeds the rewriters it leaves, applied in their
order up to the first one whose `Do` reports a change, give the result of the
first entry in visiting order whose substitution changes the input path, with
`Path` set to that substitution and no later entry applied, and leave the URL
unchanged when no entry changes it; the map holds one entry per key and each
key is visited once. -/
theorem rewrite_applies_first_rule_in_visiting_order (L : RegexpLib) (rules : List GoString)
    (m : GoMap GoString) (order : List (GoString × GoString))
    (hp : parseRewritePaths rules = some m) (ho : order.Perm m)
    (hs : (URL.setup (some (newURL L m)) order).2 = none) (url : NetURL) :
    (m.map Prod.fst).Nodup ∧ (order.map Prod.fst).Nodup ∧
    ∃ u', (URL.setup (some (newURL L m)) order).1 = some u' ∧
      rewritePath u'.PathRewriters url =
        match order.find? (changesPath L url) with
        | some e => (true, { url with Path := substitute L e (origPath url) })
        | none => (false, url) := by
  have hm : (m.map Prod.fst).Nodup :=
    parseRewritePathsLoop_nodup rules [] m (by simp) hp
  refine ⟨hm, ((ho.map Prod.fst).nodup_iff).2 hm, (setupLoop order (newURL L m)).1, rfl, ?_⟩
  have hall : ∀ e ∈ order, compiles L e.1 = true :=
    (setupLoop_nil_iff order (newURL L m)).1 hs
  have hrw := (setupLoop_rewriters order (newURL L m)).1
  rw [takeWhile_of_all _ _ hall] at hrw
  simp only [URL.PathRewriters]
  rw [hrw]
  simp only [newURL, List.nil_append]
  exact rewritePath_rewritersOf L order url

/-- C2 (amended) at the rules `a:X` and `b:Y` visited in the order `b:`, `a:`: the
path `/a:b:` is rewritten by the entry visited first, `b:` to `Y`. -/
theorem rewrite_applies_first_rule_in_visiting_order_witness :
    parseRewritePaths twoRules = some [("a:".toList, "X".toList), ("b:".toList, "Y".toList)] ∧
    ∃ u', (URL.setup
        (some (newURL litRegexp [("a:".toList, "X".toList), ("b:".toList, "Y".toList)]))
        [("b:".toList, "Y".toList), ("a:".toList, "X".toList)]).1 = some u' ∧
      rewritePath u'.PathRewriters (pathURL "/a:b:".toList) =
        match [("b:".toList, "Y".toList), ("a:".toList, "X".toList)].find?
          (changesPath litRegexp (pathURL "/a:b:".toList)) with
        | some e => (true, { pathURL "/a:b:".toList with
            Path := substitute litRegexp e (origPath (pathURL "/a:b:".toList)) })
        | none => (false, pathURL "/a:b:".toList) :=
  ⟨by decide,
   (rewrite_applies_first_rule_in_visiting_order litRegexp twoRules
      [("a:".toList, "X".toList), ("b:".toList, "Y".toList)]
      [("b:".toList, "Y".toList), ("a:".toList, "X".toList)]
      (by decide) (List.Perm.swap _ _ _) (by decide) (pathURL "/a:b:".toList)).2.2⟩

end HFwd
